import Mathlib

/-!
Verification of the comparison-gadget layer (`src/lib/provable/gadgets/comparison.ts`).

Field elements are modelled as `ZMod p` for the field order `p`; the gadgets are
kept parametric in `p` (the `Fp` of the source is the Pallas base field, whose order
is `fpOrder` below).  Each gadget is embedded as a pure function returning its
prover-pass value(s) together with the list of constraints it emits; witness
creation (`exists` in the source) becomes an explicit parameter, so that
soundness statements can quantify over all witness choices a prover might make.
-/

namespace Comparison

/-- The order of the field `Fp` used by the source (the Pallas base field modulus). -/
def fpOrder : ℕ := 28948022309329048855892746252171976963363056481941560715954676764349967630337

/-- A constraint emitted into the circuit: either a multiplication constraint
`a * b = c` (from `assertMul`) or an explicit boolean constraint on a wire
(from `assertBool`). -/
inductive Constraint (p : ℕ) where
  | cmul (a b c : ZMod p)
  | cbool (b : ZMod p)
  deriving DecidableEq

/-- Whether a single constraint holds of the values on its wires:
`cmul a b c` enforces `a * b = c`; `cbool b` enforces `b * b = b`,
i.e. `b * (b - 1) = 0`. -/
def Constraint.holds {p : ℕ} : Constraint p → Prop
  | .cmul a b c => a * b = c
  | .cbool b => b * b = b

instance {p : ℕ} (c : Constraint p) : Decidable c.holds :=
  match c with
  | .cmul a b c => inferInstanceAs (Decidable (a * b = c))
  | .cbool b => inferInstanceAs (Decidable (b * b = b))

/-- Discriminator: is this constraint an explicit boolean constraint? -/
def Constraint.isBoolC {p : ℕ} : Constraint p → Bool
  | .cbool _ => true
  | _ => false

/-- All constraints in a list hold (a satisfying assignment of the circuit). -/
def satisfied (p : ℕ) (cs : List (Constraint p)) : Prop := ∀ co ∈ cs, co.holds

instance {p : ℕ} (cs : List (Constraint p)) : Decidable (satisfied p cs) :=
  inferInstanceAs (Decidable (∀ co ∈ cs, co.holds))

/-- Modelled from the spec: `Fp.sizeInBits`, the bit-width of the field
modulus `p` (the source imports it from the external field bindings). -/
def sizeInBits (p : ℕ) : ℕ := Nat.log2 p + 1

/-- `assertLessThanOrEqualGeneric x y rangeCheck` hands `rangeCheck` the single
sealed value `y.sub(x).seal()`; this is that value. -/
def assertLessThanOrEqualGenericValue (p : ℕ) (x y : ZMod p) : ZMod p := y - x

/-- Modelled from the spec: the caller-supplied `rangeCheck(v)` "must assert
`v ∈ [0, c)`".  The constraints emitted by `assertLessThanOrEqualGeneric` are
therefore satisfiable exactly when the sealed value `y - x` lies in `[0, c)`. -/
def assertLessThanOrEqualGenericSat (p : ℕ) (x y : ZMod p) (c : ℕ) : Prop :=
  (assertLessThanOrEqualGenericValue p x y).val < c

/-- `assertLessThanGeneric x y rangeCheck` hands `rangeCheck` the single sealed
value `y.sub(1).sub(x).seal()`; this is that value. -/
def assertLessThanGenericValue (p : ℕ) (x y : ZMod p) : ZMod p := y - 1 - x

/-- Modelled from the spec: satisfiability of the constraints emitted by
`assertLessThanGeneric`, with `rangeCheck` asserting membership in `[0, c)`. -/
def assertLessThanGenericSat (p : ℕ) (x y : ZMod p) (c : ℕ) : Prop :=
  (assertLessThanGenericValue p x y).val < c

/-- Errors raised by the gadgets in this file: the `assert` guarding the bit
length in `compareCompatible`, and the prover-mode range check in
`checkRangesAsProver`. -/
inductive CompareError where
  | bitLengthTooLarge
  | inputOutOfRange
  deriving DecidableEq

/-- `checkRangesAsProver(x, y, c)`: inside an `asProver` block (modelled by the
explicit `proverMode` flag) it reads the concrete values of `x` and `y` and
throws if either is `≥ c`.  It emits no constraints, which the second component
records. -/
def checkRangesAsProver (p : ℕ) (proverMode : Bool) (x y : ZMod p) (c : ℕ) :
    Except CompareError Unit × List (Constraint p) :=
  (if proverMode ∧ (c ≤ x.val ∨ c ≤ y.val) then .error .inputOutOfRange else .ok (), [])

/-- Modelled from the spec: the witness computation inside `isZero` —
`z = 1/x` (`Fp.inverse`, which is `0` at `x = 0`) and `b = 1 - z * x`.
For prime `p`, the `ZMod` inverse agrees with `Fp.inverse(x) ?? 0n`. -/
def isZeroWitness (p : ℕ) (x : ZMod p) : ZMod p × ZMod p :=
  let z := x⁻¹
  let b := 1 - z * x
  (b, z)

/-- The deterministic part of `isZero`: given the two witness values `b`, `z`
(created by `exists` in the source), it returns the wire `b` and emits
`assertMul(b, x, 0)` and `assertMul(z, x, 1 - b)`.  No boolean constraint is
placed on `b`. -/
def isZeroGadget (p : ℕ) (x b z : ZMod p) : ZMod p × List (Constraint p) :=
  (b, [.cmul b x 0, .cmul z x (1 - b)])

/-- `isZero(x)`: the prover pass fills in the witnesses and runs the gadget. -/
def isZero (p : ℕ) (x : ZMod p) : ZMod p × List (Constraint p) :=
  isZeroGadget p x (isZeroWitness p x).1 (isZeroWitness p x).2

/-- `any(xs)`: sums the bits as field elements (`reduce` with `add`, emitting no
constraints), applies `isZero` to the sum and negates the result
(`not` is the linear map `b ↦ 1 - b`, emitting no constraints). -/
def any (p : ℕ) (xs : List (ZMod p)) : ZMod p × List (Constraint p) :=
  let sum := xs.foldl (fun a b => a + b) 0
  let allZero := isZero p sum
  (1 - allZero.1, allZero.2)

/-- Modelled from the spec: the witness computation inside `unpack` — bit `k`
of the concrete value of `x`, i.e. `(x0 >> k) & 1`, for `k < length`. -/
def unpackWitness (p : ℕ) (x : ZMod p) (length : ℕ) : List (ZMod p) :=
  (List.range length).map fun k => (((x.val >>> k) &&& 1 : ℕ) : ZMod p)

/-- The deterministic part of `unpack`: given the witness bits, it asserts each
bit boolean, forms the linear combination `Σ bits[i] * 2^i` and emits
`assertMul(lc, 1, x)`; it returns the bits (re-wrapped by `createBool`,
which adds no constraint). -/
def unpackGadget (p : ℕ) (x : ZMod p) (bits : List (ZMod p)) :
    List (ZMod p) × List (Constraint p) :=
  let lc := bits.enum.foldl (fun acc bi => acc + bi.2 * (2 : ZMod p) ^ bi.1) 0
  (bits, bits.map .cbool ++ [.cmul lc 1 x])

/-- `unpack(x, length)`: the prover pass fills in the bit witnesses and runs
the gadget. -/
def unpack (p : ℕ) (x : ZMod p) (length : ℕ) : List (ZMod p) × List (Constraint p) :=
  unpackGadget p x (unpackWitness p x length)

/-- `compareCompatible(x, y, n)` (prover-value semantics): asserts
`n ≤ Fp.sizeInBits - 2`, runs the prover-mode range guard with `c = 1 << n`,
forms `z = 2^n + y - x`, unpacks it into `n + 1` bits; `lessOrEqual` is bit
`n`, and `less = lessOrEqual.and(any(bits[0..n)).not()... )` — precisely,
`less = lessOrEqual.and(notAllZeros)` where `notAllZeros = any(zBits.slice(0, n))`
and `Bool.and` multiplies the two wire values. -/
def compareCompatible (p : ℕ) (proverMode : Bool) (x y : ZMod p)
    (n : ℕ := sizeInBits p - 2) : Except CompareError (ZMod p × ZMod p) :=
  let maxLength := sizeInBits p - 2
  if n ≤ maxLength then
    let c : ℕ := 1 <<< n
    match (checkRangesAsProver p proverMode x y c).1 with
    | .error e => .error e
    | .ok _ =>
      let z := (c : ZMod p) + y - x
      let zBits := (unpack p z (n + 1)).1
      let lessOrEqual := zBits.getD n 0
      let lowBits := zBits.take n
      let notAllZeros := (any p lowBits).1
      let less := lessOrEqual * notAllZeros
      .ok (lessOrEqual, less)
  else .error .bitLengthTooLarge

/-- Horner form of the weighted bit sum `Σ bits[i] * 2^i`; used to reason about
the linear combination built inside `unpackGadget`. -/
def hornerLc (p : ℕ) : List (ZMod p) → ZMod p
  | [] => 0
  | b :: bs => b + 2 * hornerLc p bs

/-- The number-of-ones reference value: sum of the low `n` bits of `z`. -/
def lowOnes (z n : ℕ) : ℕ := ((List.range n).map fun k => (z >>> k) &&& 1).sum

/- ### Helper lemmas -/

lemma val_sub_eq (p : ℕ) [NeZero p] (a b : ZMod p) :
    (a - b).val = (a.val + (p - b.val)) % p := by
  have hb : b.val ≤ p := (ZMod.val_lt b).le
  have h1 : ((p - b.val : ℕ) : ZMod p) = -b := by
    rw [Nat.cast_sub hb, ZMod.natCast_self, ZMod.natCast_zmod_val]
    ring
  have h2 : a - b = a + ((p - b.val : ℕ) : ZMod p) := by rw [h1]; ring
  rw [h2, ZMod.val_add, ZMod.val_natCast, Nat.add_mod_mod]

lemma assertLessThanOrEqualGenericValue_val (p : ℕ) (x y : ZMod p) (c : ℕ)
    (hx : x.val < c) (hy : y.val < c) (hc : 2 * c ≤ p) :
    (assertLessThanOrEqualGenericValue p x y).val =
      if x.val ≤ y.val then y.val - x.val else p - (x.val - y.val) := by
  have hp : NeZero p := ⟨by omega⟩
  rw [assertLessThanOrEqualGenericValue, val_sub_eq]
  rcases le_or_lt x.val y.val with h | h
  · rw [if_pos h]
    have e : y.val + (p - x.val) = (y.val - x.val) + p := by omega
    rw [e, Nat.add_mod_right, Nat.mod_eq_of_lt (by omega)]
  · rw [if_neg (by omega)]
    have e : y.val + (p - x.val) = p - (x.val - y.val) := by omega
    rw [e, Nat.mod_eq_of_lt (by omega)]

lemma assertLessThanGenericValue_val (p : ℕ) (x y : ZMod p) (c : ℕ)
    (hx : x.val < c) (hy : y.val < c) (hc : 2 * c ≤ p) :
    (assertLessThanGenericValue p x y).val =
      if x.val < y.val then y.val - 1 - x.val else p - (x.val + 1 - y.val) := by
  have hp : NeZero p := ⟨by omega⟩
  have h1 : (1 : ZMod p).val = 1 := by
    rw [ZMod.val_one_eq_one_mod]
    exact Nat.mod_eq_of_lt (by omega)
  have hyp : y.val < p := ZMod.val_lt y
  have hxp : x.val < p := ZMod.val_lt x
  rw [assertLessThanGenericValue, val_sub_eq, val_sub_eq, h1, Nat.mod_add_mod]
  rcases lt_or_le x.val y.val with h | h
  · rw [if_pos h]
    have e : y.val + (p - 1) + (p - x.val) = ((y.val - 1 - x.val) + p) + p := by omega
    rw [e, Nat.add_mod_right, Nat.add_mod_right, Nat.mod_eq_of_lt (by omega)]
  · rw [if_neg (by omega)]
    have e : y.val + (p - 1) + (p - x.val) = (p - (x.val + 1 - y.val)) + p := by omega
    rw [e, Nat.add_mod_right, Nat.mod_eq_of_lt (by omega)]

lemma foldl_add_eq_add_sum (p : ℕ) (l : List (ZMod p)) (a : ZMod p) :
    l.foldl (fun u v => u + v) a = a + l.sum := by
  induction l generalizing a with
  | nil => simp
  | cons b bs ih => simp [ih, add_assoc]

lemma foldl_enumFrom_lc (p : ℕ) (bs : List (ZMod p)) (k : ℕ) (a : ZMod p) :
    (List.enumFrom k bs).foldl (fun acc bi => acc + bi.2 * (2 : ZMod p) ^ bi.1) a
      = a + 2 ^ k * hornerLc p bs := by
  induction bs generalizing k a with
  | nil => simp [hornerLc]
  | cons b bs ih =>
    have h : List.enumFrom k (b :: bs) = (k, b) :: List.enumFrom (k + 1) bs := rfl
    rw [h, List.foldl_cons, ih]
    simp only [hornerLc]
    ring

lemma unpackGadget_trace (p : ℕ) (x : ZMod p) (bits : List (ZMod p)) :
    (unpackGadget p x bits).2 =
      bits.map Constraint.cbool ++ [Constraint.cmul (hornerLc p bits) 1 x] := by
  have h : bits.enum.foldl (fun acc bi => acc + bi.2 * (2 : ZMod p) ^ bi.1) 0
      = hornerLc p bits := by
    have h0 := foldl_enumFrom_lc p bits 0 0
    simpa [List.enum] using h0
  simp only [unpackGadget, h]

lemma satisfied_append (p : ℕ) (cs1 cs2 : List (Constraint p)) :
    satisfied p (cs1 ++ cs2) ↔ satisfied p cs1 ∧ satisfied p cs2 := by
  simp [satisfied, List.mem_append, or_imp, forall_and]

lemma hornerLc_boolean_decode (p : ℕ) (bits : List (ZMod p))
    (hb : ∀ b ∈ bits, b = 0 ∨ b = 1) :
    ∃ v : ℕ, v < 2 ^ bits.length ∧ hornerLc p bits = (v : ZMod p) := by
  induction bits with
  | nil => exact ⟨0, by norm_num, by simp [hornerLc]⟩
  | cons b bs ih =>
    obtain ⟨v, hv, hsum⟩ := ih fun c hc => hb c (List.mem_cons_of_mem _ hc)
    rcases hb b (List.mem_cons_self b bs) with hb0 | hb1
    · refine ⟨2 * v, by rw [List.length_cons, pow_succ]; omega, ?_⟩
      simp only [hornerLc, hb0, hsum]
      push_cast
      ring
    · refine ⟨2 * v + 1, by rw [List.length_cons, pow_succ]; omega, ?_⟩
      simp only [hornerLc, hb1, hsum]
      push_cast
      ring

lemma hornerLc_natBits (p v len : ℕ) :
    hornerLc p ((List.range len).map fun k => (((v >>> k) &&& 1 : ℕ) : ZMod p))
      = ((v % 2 ^ len : ℕ) : ZMod p) := by
  induction len generalizing v with
  | zero => simp [hornerLc, Nat.mod_one]
  | succ len ih =>
    rw [List.range_succ_eq_map, List.map_cons, List.map_map]
    have hh : (v >>> 0) &&& 1 = v % 2 := by
      rw [Nat.shiftRight_zero, Nat.and_one_is_mod]
    have ht : ((List.range len).map
        ((fun k => (((v >>> k) &&& 1 : ℕ) : ZMod p)) ∘ (· + 1)))
        = (List.range len).map fun k => ((((v >>> 1) >>> k) &&& 1 : ℕ) : ZMod p) := by
      refine List.map_congr_left fun k _ => ?_
      simp only [Function.comp]
      rw [Nat.add_comm k 1, Nat.shiftRight_add]
    rw [ht]
    simp only [hornerLc, hh, ih]
    have hm : v % 2 ^ (len + 1) = v % 2 + 2 * ((v >>> 1) % 2 ^ len) := by
      rw [Nat.shiftRight_one, pow_succ', Nat.mod_mul]
    rw [hm]
    push_cast
    ring

lemma unpackWitness_length (p : ℕ) (x : ZMod p) (len : ℕ) :
    (unpackWitness p x len).length = len := by
  simp [unpackWitness]

lemma unpackWitness_boolean (p : ℕ) (x : ZMod p) (len : ℕ) :
    ∀ b ∈ unpackWitness p x len, b = 0 ∨ b = 1 := by
  intro b hb
  simp only [unpackWitness, List.mem_map, List.mem_range] at hb
  obtain ⟨k, _, rfl⟩ := hb
  rw [Nat.and_one_is_mod]
  rcases Nat.mod_two_eq_zero_or_one (x.val >>> k) with h | h <;> rw [h] <;> simp

lemma hornerLc_unpackWitness (p : ℕ) (x : ZMod p) (len : ℕ) (h : x.val < 2 ^ len) :
    hornerLc p (unpackWitness p x len) = ((x.val : ℕ) : ZMod p) := by
  rw [unpackWitness, hornerLc_natBits, Nat.mod_eq_of_lt h]

lemma hornerLc_eq_sum_getD (p : ℕ) (bits : List (ZMod p)) :
    hornerLc p bits = ∑ i ∈ Finset.range bits.length, bits.getD i 0 * (2 : ZMod p) ^ i := by
  induction bits with
  | nil => simp [hornerLc]
  | cons b bs ih =>
    rw [List.length_cons, Finset.sum_range_succ']
    simp only [List.getD_cons_succ, List.getD_cons_zero, pow_zero, mul_one]
    simp only [hornerLc, ih, Finset.mul_sum]
    rw [add_comm]
    congr 1
    refine Finset.sum_congr rfl fun i _ => ?_
    ring

lemma isZeroGadget_mul1 (p : ℕ) (x b z : ZMod p)
    (h : satisfied p (isZeroGadget p x b z).2) : b * x = 0 :=
  h (Constraint.cmul b x 0) (by simp [isZeroGadget])

lemma isZeroGadget_mul2 (p : ℕ) (x b z : ZMod p)
    (h : satisfied p (isZeroGadget p x b z).2) : z * x = 1 - b :=
  h (Constraint.cmul z x (1 - b)) (by simp [isZeroGadget])

lemma isZeroGadget_sound (p : ℕ) (hp : p.Prime) (x b z : ZMod p)
    (h : satisfied p (isZeroGadget p x b z).2) :
    b = if x = 0 then 1 else 0 := by
  haveI : Fact p.Prime := ⟨hp⟩
  have h1 := isZeroGadget_mul1 p x b z h
  have h2 := isZeroGadget_mul2 p x b z h
  by_cases hx : x = 0
  · rw [if_pos hx]
    rw [hx, mul_zero] at h2
    linear_combination h2
  · rw [if_neg hx]
    rcases mul_eq_zero.mp h1 with hb | hx'
    · exact hb
    · exact absurd hx' hx

lemma isZeroWitness_mul1 (p : ℕ) (hp : p.Prime) (x : ZMod p) :
    (isZeroWitness p x).1 * x = 0 := by
  haveI : Fact p.Prime := ⟨hp⟩
  by_cases hx : x = 0
  · rw [hx, mul_zero]
  · simp [isZeroWitness, inv_mul_cancel₀ hx]

lemma isZeroWitness_mul2 (p : ℕ) (x : ZMod p) :
    (isZeroWitness p x).2 * x = 1 - (isZeroWitness p x).1 := by
  simp only [isZeroWitness]
  ring

lemma isZero_satisfied (p : ℕ) (hp : p.Prime) (x : ZMod p) :
    satisfied p (isZero p x).2 := by
  intro co hco
  simp only [isZero, isZeroGadget, List.mem_cons, List.not_mem_nil, or_false] at hco
  rcases hco with rfl | rfl
  · exact isZeroWitness_mul1 p hp x
  · exact isZeroWitness_mul2 p x

lemma isZero_val (p : ℕ) (hp : p.Prime) (x : ZMod p) :
    (isZero p x).1 = if x = 0 then 1 else 0 := by
  haveI : Fact p.Prime := ⟨hp⟩
  show (isZeroWitness p x).1 = _
  by_cases hx : x = 0
  · simp [isZeroWitness, hx]
  · simp [isZeroWitness, inv_mul_cancel₀ hx, hx]

lemma isZero_val_zero (p : ℕ) : (isZero p (0 : ZMod p)).1 = 1 := by
  simp [isZero, isZeroGadget, isZeroWitness]

lemma isZero_val_of_inv (p : ℕ) (x : ZMod p) (h : x⁻¹ * x = 1) :
    (isZero p x).1 = 0 := by
  show 1 - x⁻¹ * x = 0
  rw [h, sub_self]

lemma inv_mul_of_coprime (p : ℕ) [NeZero p] (s : ℕ) (hs : s < p)
    (hg : Nat.gcd s p = 1) : ((s : ZMod p))⁻¹ * (s : ZMod p) = 1 := by
  rw [mul_comm, ZMod.mul_inv_eq_gcd, ZMod.val_natCast, Nat.mod_eq_of_lt hs, hg,
    Nat.cast_one]

lemma isZero_no_boolean_constraint (p : ℕ) (x : ZMod p) :
    ∀ co ∈ (isZero p x).2, co.isBoolC = false := by
  intro co hco
  simp only [isZero, isZeroGadget, List.mem_cons, List.not_mem_nil, or_false] at hco
  rcases hco with rfl | rfl <;> rfl

lemma boolean_sum_decode (p : ℕ) (hp1 : 1 < p) (xs : List (ZMod p))
    (hxs : ∀ b ∈ xs, b = 0 ∨ b = 1) :
    ∃ m : ℕ, m ≤ xs.length ∧ xs.sum = (m : ZMod p) ∧ (m = 0 ↔ (1 : ZMod p) ∉ xs) := by
  haveI : Fact (1 < p) := ⟨hp1⟩
  induction xs with
  | nil => exact ⟨0, le_refl 0, by simp, by simp⟩
  | cons b bs ih =>
    obtain ⟨m, hm, hsum, hiff⟩ := ih fun c hc => hxs c (List.mem_cons_of_mem _ hc)
    rcases hxs b (List.mem_cons_self b bs) with hb0 | hb1
    · refine ⟨m, hm.trans (Nat.le_succ _), by simp [hb0, hsum], ?_⟩
      rw [hiff, hb0]
      simp
    · refine ⟨m + 1, by simpa using hm,
        by rw [hb1, List.sum_cons, hsum]; push_cast; ring, ?_⟩
      constructor
      · omega
      · intro h
        exact absurd (List.mem_cons_self b bs) (hb1 ▸ h)

lemma any_val (p : ℕ) (hp : p.Prime) (xs : List (ZMod p))
    (hxs : ∀ b ∈ xs, b = 0 ∨ b = 1) (hlen : xs.length < p) :
    (any p xs).1 = if (1 : ZMod p) ∈ xs then 1 else 0 := by
  haveI : Fact p.Prime := ⟨hp⟩
  obtain ⟨m, hm, hsum, hiff⟩ := boolean_sum_decode p hp.one_lt xs hxs
  have hfold : xs.foldl (fun a b => a + b) 0 = (m : ZMod p) := by
    rw [foldl_add_eq_add_sum, zero_add, hsum]
  by_cases hmem : (1 : ZMod p) ∈ xs
  · rw [if_pos hmem]
    have hm0 : m ≠ 0 := fun h0 => (hiff.mp h0) hmem
    have hms : ((m : ℕ) : ZMod p) ≠ 0 := by
      rw [Ne, ZMod.natCast_zmod_eq_zero_iff_dvd]
      intro hdvd
      exact hm0 (Nat.eq_zero_of_dvd_of_lt hdvd (by omega))
    have hz : (isZero p (xs.foldl (fun a b => a + b) 0)).1 = 0 := by
      rw [hfold]
      exact isZero_val_of_inv p _ (inv_mul_cancel₀ hms)
    simp only [any, hz, sub_zero]
  · rw [if_neg hmem]
    have hm0 : m = 0 := hiff.mpr hmem
    have hz : (isZero p (xs.foldl (fun a b => a + b) 0)).1 = 1 := by
      rw [hfold, hm0, Nat.cast_zero]
      exact isZero_val_zero p
    simp only [any, hz, sub_self]

lemma unpack_fst (p : ℕ) (x : ZMod p) (len : ℕ) :
    (unpack p x len).1 = unpackWitness p x len := rfl

lemma unpackWitness_getD (p : ℕ) (x : ZMod p) (len k : ℕ) (h : k < len) :
    (unpackWitness p x len).getD k 0 = (((x.val >>> k) &&& 1 : ℕ) : ZMod p) := by
  rw [unpackWitness, List.getD_eq_getElem?_getD, List.getElem?_map, List.getElem?_range h]
  rfl

lemma unpackWitness_take (p : ℕ) (x : ZMod p) (len k : ℕ) (h : k ≤ len) :
    (unpackWitness p x len).take k = unpackWitness p x k := by
  rw [unpackWitness, unpackWitness, ← List.map_take, List.take_range, min_eq_left h]

lemma unpackWitness_foldl_sum (p : ℕ) (x : ZMod p) (len : ℕ) :
    (unpackWitness p x len).foldl (fun a b => a + b) 0
      = ((lowOnes x.val len : ℕ) : ZMod p) := by
  rw [foldl_add_eq_add_sum, zero_add, unpackWitness, lowOnes, Nat.cast_list_sum,
    List.map_map]
  rfl

lemma lowOnes_le (z n : ℕ) : lowOnes z n ≤ n := by
  have h := List.sum_le_card_nsmul ((List.range n).map fun k => (z >>> k) &&& 1) 1 ?_
  · simpa [lowOnes] using h
  · intro b hb
    simp only [List.mem_map, List.mem_range] at hb
    obtain ⟨k, _, rfl⟩ := hb
    rw [Nat.and_one_is_mod]
    omega

lemma n_lt_p_of_le_maxLength (p n : ℕ) (hp : 1 ≤ p) (hn : n ≤ sizeInBits p - 2) :
    n < p := by
  have h1 : 2 ^ Nat.log2 p ≤ p := Nat.log2_self_le (by omega)
  have h2 : Nat.log2 p < 2 ^ Nat.log2 p := Nat.lt_two_pow (Nat.log2 p)
  rw [sizeInBits] at hn
  omega

lemma compareCompatible_eval (p : ℕ) (x y n : ℕ)
    (hn : n ≤ sizeInBits p - 2) (hx : x < 2 ^ n) (hy : y < 2 ^ n)
    (hp2 : 2 ^ (n + 1) ≤ p)
    (hg : lowOnes (2 ^ n + y - x) n = 0 ∨ Nat.gcd (lowOnes (2 ^ n + y - x) n) p = 1) :
    compareCompatible p true ((x : ℕ) : ZMod p) ((y : ℕ) : ZMod p) n =
      .ok (((((2 ^ n + y - x) >>> n) &&& 1 : ℕ) : ZMod p),
           ((((2 ^ n + y - x) >>> n) &&& 1 : ℕ) : ZMod p) *
             (if lowOnes (2 ^ n + y - x) n = 0 then 0 else 1)) := by
  have hpow : (2 : ℕ) ^ n < 2 ^ (n + 1) := Nat.pow_lt_pow_right (by norm_num) (Nat.lt_succ_self n)
  have hp1 : 2 ≤ p := le_trans (Nat.one_lt_two_pow (Nat.succ_ne_zero n)) hp2
  haveI : NeZero p := ⟨by omega⟩
  have hxp : x < p := by omega
  have hyp : y < p := by omega
  have hvx : (((x : ℕ) : ZMod p)).val = x := ZMod.val_cast_of_lt hxp
  have hvy : (((y : ℕ) : ZMod p)).val = y := ZMod.val_cast_of_lt hyp
  have hcr : (checkRangesAsProver p true ((x : ℕ) : ZMod p) ((y : ℕ) : ZMod p)
      (1 <<< n)).1 = .ok () := by
    rw [checkRangesAsProver, if_neg]
    rintro ⟨-, hc⟩
    rw [Nat.one_shiftLeft, hvx, hvy] at hc
    omega
  have hzval : (((1 <<< n : ℕ) : ZMod p) + ((y : ℕ) : ZMod p) - ((x : ℕ) : ZMod p)).val
      = 2 ^ n + y - x := by
    have hvc : (((1 <<< n : ℕ) : ZMod p)).val = 2 ^ n := by
      rw [Nat.one_shiftLeft]
      exact ZMod.val_cast_of_lt (by omega)
    have hadd : (((1 <<< n : ℕ) : ZMod p) + ((y : ℕ) : ZMod p)).val = 2 ^ n + y := by
      rw [ZMod.val_add_of_lt (by rw [hvc, hvy]; omega), hvc, hvy]
    rw [ZMod.val_sub (by rw [hadd, hvx]; omega), hadd, hvx]
  simp only [compareCompatible, if_pos hn, hcr, unpack_fst]
  rw [unpackWitness_getD p _ (n + 1) n (Nat.lt_succ_self n), hzval,
    unpackWitness_take p _ (n + 1) n (Nat.le_succ n)]
  simp only [any, unpackWitness_foldl_sum, hzval]
  rcases hg with hg0 | hg1
  · rw [hg0, if_pos rfl, Nat.cast_zero, isZero_val_zero, sub_self]
  · have hs0 : lowOnes (2 ^ n + y - x) n ≠ 0 := by
      intro h0
      rw [h0, Nat.gcd_zero_left] at hg1
      omega
    have hslt : lowOnes (2 ^ n + y - x) n < p :=
      lt_of_le_of_lt (lowOnes_le _ n) (n_lt_p_of_le_maxLength p n (by omega) hn)
    rw [isZero_val_of_inv p _ (inv_mul_of_coprime p _ hslt hg1), sub_zero, if_neg hs0]

lemma sizeInBits_fpOrder : sizeInBits fpOrder = 255 := by
  have h : Nat.log 2 fpOrder = 254 :=
    Nat.log_eq_of_pow_le_of_lt_pow (by decide) (by decide)
  rw [sizeInBits, Nat.log2_eq_log_two, h]

lemma checkRangesAsProver_fst_cases (p : ℕ) (mode : Bool) (x y : ZMod p) (c : ℕ) :
    (checkRangesAsProver p mode x y c).1 = .ok () ∨
    (checkRangesAsProver p mode x y c).1 = .error .inputOutOfRange := by
  rw [checkRangesAsProver]
  split_ifs <;> simp

lemma unpackGadget_forced (p : ℕ) (hp : p.Prime) (x : ZMod p) (bits : List (ZMod p))
    (hsat : satisfied p (unpackGadget p x bits).2) :
    (∀ b ∈ bits, b = 0 ∨ b = 1) ∧ hornerLc p bits = x := by
  haveI : Fact p.Prime := ⟨hp⟩
  rw [unpackGadget_trace, satisfied_append] at hsat
  obtain ⟨hsb, hsm⟩ := hsat
  have hbool : ∀ b ∈ bits, b = 0 ∨ b = 1 := by
    intro b hb
    have h : b * b = b := hsb (Constraint.cbool b) (List.mem_map_of_mem _ hb)
    have h2 : b * (b - 1) = 0 := by linear_combination h
    rcases mul_eq_zero.mp h2 with h3 | h3
    · exact Or.inl h3
    · exact Or.inr (by linear_combination h3)
  have hm : hornerLc p bits * 1 = x :=
    hsm (Constraint.cmul (hornerLc p bits) 1 x) (List.mem_singleton_self _)
  exact ⟨hbool, by linear_combination hm⟩

/- ### Claim theorems -/

/-- Claim C1: for all field elements `x, y` with `0 ≤ x, y < c` and `2c ≤ p`,
the constraints emitted by `assertLessThanOrEqualGeneric(x, y, rangeCheck)` —
`rangeCheck` applied to the sealed value `y - x`, where `rangeCheck` asserts
membership in `[0, c)` — are satisfiable exactly when `x ≤ y`. -/
theorem assertLessThanOrEqualGeneric_correct (p : ℕ) (x y : ZMod p) (c : ℕ)
    (hx : x.val < c) (hy : y.val < c) (hc : 2 * c ≤ p) :
    assertLessThanOrEqualGenericSat p x y c ↔ x.val ≤ y.val := by
  rw [assertLessThanOrEqualGenericSat,
    assertLessThanOrEqualGenericValue_val p x y c hx hy hc]
  rcases le_or_lt x.val y.val with h | h
  · rw [if_pos h]; omega
  · rw [if_neg (by omega)]; omega

/-- Witness for C1 at `p = 11`, `x = 2`, `y = 3`, `c = 5`. -/
theorem assertLessThanOrEqualGeneric_correct_witness :
    assertLessThanOrEqualGenericSat 11 (2 : ZMod 11) (3 : ZMod 11) 5 :=
  (assertLessThanOrEqualGeneric_correct 11 2 3 5 (by decide) (by decide)
    (by decide)).mpr (by decide)

/-- Claim C2: for all field elements `x, y` with `0 ≤ x, y < c` and `2c ≤ p`,
the constraints emitted by `assertLessThanGeneric(x, y, rangeCheck)` —
`rangeCheck` applied to the sealed value `y - 1 - x`, where `rangeCheck`
asserts membership in `[0, c)` — are satisfiable exactly when `x < y`. -/
theorem assertLessThanGeneric_correct (p : ℕ) (x y : ZMod p) (c : ℕ)
    (hx : x.val < c) (hy : y.val < c) (hc : 2 * c ≤ p) :
    assertLessThanGenericSat p x y c ↔ x.val < y.val := by
  rw [assertLessThanGenericSat, assertLessThanGenericValue_val p x y c hx hy hc]
  rcases lt_or_le x.val y.val with h | h
  · rw [if_pos h]; omega
  · rw [if_neg (by omega)]; omega

/-- Witness for C2 at `p = 11`, `x = 2`, `y = 4`, `c = 5`. -/
theorem assertLessThanGeneric_correct_witness :
    assertLessThanGenericSat 11 (2 : ZMod 11) (4 : ZMod 11) 5 :=
  (assertLessThanGeneric_correct 11 2 4 5 (by decide) (by decide) (by decide)).mpr
    (by decide)

/-- Claim C4: `unpack(x, length)` returns exactly `length` wires; for
`x < 2^length` the bit assignment of the prover satisfies every emitted constraint;
in every satisfying assignment the bits are boolean and their weighted sum
`Σ bits[i]·2^i` equals `x`; and for `x ≥ 2^length` the emitted constraints
(the boolean constraints plus the recomposition equality `lc · 1 = x`) allow
no satisfying assignment. -/
theorem unpack_correct (p : ℕ) (hp : p.Prime) (x : ZMod p) (len : ℕ) :
    (unpack p x len).1.length = len ∧
    (x.val < 2 ^ len → satisfied p (unpack p x len).2) ∧
    (∀ bits : List (ZMod p), bits.length = len →
      satisfied p (unpackGadget p x bits).2 →
      (∀ b ∈ bits, b = 0 ∨ b = 1) ∧
      (∑ i ∈ Finset.range len, bits.getD i 0 * (2 : ZMod p) ^ i) = x) ∧
    (2 ^ len ≤ x.val →
      ¬ ∃ bits : List (ZMod p), bits.length = len ∧
        satisfied p (unpackGadget p x bits).2) := by
  haveI : Fact p.Prime := ⟨hp⟩
  haveI : NeZero p := ⟨hp.ne_zero⟩
  refine ⟨by rw [unpack_fst, unpackWitness_length], ?_, ?_, ?_⟩
  · intro hlt
    show satisfied p (unpackGadget p x (unpackWitness p x len)).2
    rw [unpackGadget_trace, satisfied_append]
    constructor
    · intro co hco
      simp only [List.mem_map] at hco
      obtain ⟨b, hb, rfl⟩ := hco
      show b * b = b
      rcases unpackWitness_boolean p x len b hb with h | h <;> rw [h] <;> ring
    · intro co hco
      simp only [List.mem_singleton] at hco
      subst hco
      show hornerLc p (unpackWitness p x len) * 1 = x
      rw [hornerLc_unpackWitness p x len hlt, mul_one, ZMod.natCast_zmod_val]
  · intro bits hlen hsat
    obtain ⟨hbool, hsum⟩ := unpackGadget_forced p hp x bits hsat
    refine ⟨hbool, ?_⟩
    rw [← hlen, ← hornerLc_eq_sum_getD]
    exact hsum
  · rintro hge ⟨bits, hlen, hsat⟩
    obtain ⟨hbool, hsum⟩ := unpackGadget_forced p hp x bits hsat
    obtain ⟨v, hv, hveq⟩ := hornerLc_boolean_decode p bits hbool
    rw [hlen] at hv
    have hvp : v < p := lt_of_lt_of_le hv (le_trans hge (ZMod.val_lt x).le)
    have hxval : x.val = v := by
      rw [← hsum, hveq, ZMod.val_cast_of_lt hvp]
    omega

/-- Witness for C4 at `p = 11`, `x = 5`, `length = 3`. -/
theorem unpack_correct_witness : satisfied 11 (unpack 11 (5 : ZMod 11) 3).2 :=
  (unpack_correct 11 (by norm_num) (5 : ZMod 11) 3).2.1 (by decide)

/-- Claim C5: `isZero(x)` returns a wire `b` with `b = 1` iff `x = 0` (else
`b = 0`); the witness values computed by the prover satisfy the two emitted constraints
`b·x = 0` and `z·x = 1 - b`; and those constraints force this value of `b` in
every satisfying assignment, so no other choice of `b`, `z` can satisfy them. -/
theorem isZero_correct (p : ℕ) (hp : p.Prime) (x : ZMod p) :
    ((isZero p x).1 = (if x = 0 then 1 else 0) ∧ satisfied p (isZero p x).2) ∧
    (∀ b z : ZMod p, satisfied p (isZeroGadget p x b z).2 →
      b = if x = 0 then 1 else 0) :=
  ⟨⟨isZero_val p hp x, isZero_satisfied p hp x⟩,
    fun b z h => isZeroGadget_sound p hp x b z h⟩

/-- Witness for C5 at `p = 5`, `x = 2`. -/
theorem isZero_correct_witness :
    (isZero 5 (2 : ZMod 5)).1 = if (2 : ZMod 5) = 0 then 1 else 0 :=
  (isZero_correct 5 (by norm_num) 2).1.1

/-- Claim C6: for a sequence of boolean wires (each `0` or `1`, in a list
shorter than the field order), `any(bits)` returns `1` exactly when some
element is `1`, and `0` exactly when none is — in particular `any` of the
empty or all-zero sequence is `0`. -/
theorem any_correct (p : ℕ) (hp : p.Prime) (xs : List (ZMod p))
    (hxs : ∀ b ∈ xs, b = 0 ∨ b = 1) (hlen : xs.length < p) :
    ((any p xs).1 = 1 ↔ (1 : ZMod p) ∈ xs) ∧
    ((any p xs).1 = 0 ↔ (1 : ZMod p) ∉ xs) := by
  haveI : Fact p.Prime := ⟨hp⟩
  rw [any_val p hp xs hxs hlen]
  by_cases h : (1 : ZMod p) ∈ xs
  · simp [h]
  · simp [h]

/-- Witness for C6 at `p = 5`, `bits = [0, 1]`. -/
theorem any_correct_witness : (any 5 [(0 : ZMod 5), 1]).1 = 1 :=
  (any_correct 5 (by norm_num) [(0 : ZMod 5), 1] (by decide) (by decide)).1.mpr
    (by decide)

/-- Claim C7: `checkRangesAsProver(x, y, c)` raises its error exactly when it
runs in prover mode and the concrete value of `x` or of `y` is `≥ c`; in
constraint-shape mode it is a no-op, and it adds no constraint in either
mode. -/
theorem checkRangesAsProver_spec (p : ℕ) (mode : Bool) (x y : ZMod p) (c : ℕ) :
    ((checkRangesAsProver p mode x y c).1 = .error .inputOutOfRange ↔
      (mode = true ∧ (c ≤ x.val ∨ c ≤ y.val))) ∧
    (mode = false → (checkRangesAsProver p mode x y c).1 = .ok ()) ∧
    (checkRangesAsProver p mode x y c).2 = [] := by
  refine ⟨?_, ?_, rfl⟩
  · rw [checkRangesAsProver]
    split_ifs with h
    · exact iff_of_true rfl h
    · exact iff_of_false (by simp) h
  · intro hm
    subst hm
    simp [checkRangesAsProver]

/-- Witness for C7 at `p = 11`, prover mode, `x = 5`, `y = 0`, `c = 4`. -/
theorem checkRangesAsProver_spec_witness :
    (checkRangesAsProver 11 true (5 : ZMod 11) 0 4).1 = .error .inputOutOfRange :=
  (checkRangesAsProver_spec 11 true 5 0 4).1.mpr ⟨rfl, Or.inl (by decide)⟩

/-- Claim C8: `compareCompatible(x, y, n)` fails with the bit-length assertion
exactly when `n` exceeds the maximum (the field bit-width minus 2), regardless
of mode or inputs — i.e. before any witness check runs; and in constraint-shape
mode (prover mode off) it fails at all exactly when `n` exceeds that maximum. -/
theorem compareCompatible_bitLength_guard (p : ℕ) (mode : Bool) (x y : ZMod p)
    (n : ℕ) :
    (compareCompatible p mode x y n = .error .bitLengthTooLarge ↔
      sizeInBits p - 2 < n) ∧
    (mode = false →
      ((compareCompatible p mode x y n).isOk = false ↔ sizeInBits p - 2 < n)) := by
  have hneg : ¬ n ≤ sizeInBits p - 2 →
      compareCompatible p mode x y n = .error .bitLengthTooLarge := fun h => by
    simp only [compareCompatible, if_neg h]
  constructor
  · constructor
    · intro h
      by_contra hn
      have hle : n ≤ sizeInBits p - 2 := by omega
      simp only [compareCompatible, if_pos hle] at h
      rcases checkRangesAsProver_fst_cases p mode x y (1 <<< n) with hc | hc <;>
        rw [hc] at h <;> simp at h
    · intro h
      exact hneg (by omega)
  · intro hm
    subst hm
    constructor
    · intro h
      by_contra hn
      have hle : n ≤ sizeInBits p - 2 := by omega
      simp only [compareCompatible, if_pos hle] at h
      have hok : (checkRangesAsProver p false x y (1 <<< n)).1 = .ok () := by
        simp [checkRangesAsProver]
      rw [hok] at h
      simp [Except.isOk, Except.toBool] at h
    · intro h
      rw [hneg (by omega)]
      rfl

/-- Witness for C8 at `p = 11`, shape mode, `n = 99`. -/
theorem compareCompatible_bitLength_guard_witness :
    compareCompatible 11 false (0 : ZMod 11) 0 99 = .error .bitLengthTooLarge :=
  (compareCompatible_bitLength_guard 11 false 0 0 99).1.mpr (by
    have hl : Nat.log 2 11 = 3 :=
      Nat.log_eq_of_pow_le_of_lt_pow (by norm_num) (by norm_num)
    have h : sizeInBits 11 = 4 := by rw [sizeInBits, Nat.log2_eq_log_two, hl]
    omega)

/-- Counterexample to claim C9 as stated: the boolean wire returned by
`isZero` (here at `p = 5`, `x = 2`) has no explicit boolean constraint among
the constraints added at its creation. -/
theorem isZero_output_lacks_boolean_constraint :
    Constraint.cbool (isZero 5 (2 : ZMod 5)).1 ∉ (isZero 5 (2 : ZMod 5)).2 := by
  decide

/-- Claim C9 (amended): the bits returned by `unpack` each receive an explicit
boolean constraint at creation; but the wire returned by `isZero` (and hence
the wires `any` and `compareCompatible` derive from it) receives none — its
membership in `{0,1}` is instead forced by the two multiplication constraints
`isZero` adds. -/
theorem boolean_constraint_discipline (p : ℕ) (hp : p.Prime) (x : ZMod p)
    (len : ℕ) (xs : List (ZMod p)) :
    (∀ b ∈ (unpack p x len).1, Constraint.cbool b ∈ (unpack p x len).2) ∧
    (∀ co ∈ (isZero p x).2, co.isBoolC = false) ∧
    (∀ co ∈ (any p xs).2, co.isBoolC = false) ∧
    (∀ b z : ZMod p, satisfied p (isZeroGadget p x b z).2 → b = 0 ∨ b = 1) := by
  refine ⟨?_, isZero_no_boolean_constraint p x, ?_, ?_⟩
  · intro b hb
    rw [unpack_fst] at hb
    show Constraint.cbool b ∈ (unpackGadget p x (unpackWitness p x len)).2
    rw [unpackGadget_trace]
    exact List.mem_append_left _ (List.mem_map_of_mem _ hb)
  · intro co hco
    exact isZero_no_boolean_constraint p _ co hco
  · intro b z h
    have hb := isZeroGadget_sound p hp x b z h
    by_cases hx : x = 0
    · rw [if_pos hx] at hb
      exact Or.inr hb
    · rw [if_neg hx] at hb
      exact Or.inl hb

/-- Witness for the amended C9 at `p = 11`, `x = 3`, `length = 2`: the first
boolean constraint of the first returned bit is among the emitted constraints. -/
theorem boolean_constraint_discipline_witness :
    Constraint.cbool ((unpack 11 (3 : ZMod 11) 2).1.getD 0 0)
      ∈ (unpack 11 (3 : ZMod 11) 2).2 :=
  (boolean_constraint_discipline 11 (by norm_num) 3 2 []).1 _ (by decide)

/-- Claim C10: `isZero` places no explicit boolean constraint on its output
wire `b`, yet the two multiplication constraints it adds (`b·x = 0` and
`z·x = 1 - b`) force `b ∈ {0, 1}` in every satisfying assignment, for every
input `x`. -/
theorem isZero_constraints_force_boolean (p : ℕ) (hp : p.Prime) (x : ZMod p) :
    (∀ co ∈ (isZero p x).2, co.isBoolC = false) ∧
    (∀ b z : ZMod p, satisfied p (isZeroGadget p x b z).2 → b = 0 ∨ b = 1) := by
  refine ⟨isZero_no_boolean_constraint p x, fun b z h => ?_⟩
  have hb := isZeroGadget_sound p hp x b z h
  by_cases hx : x = 0
  · rw [if_pos hx] at hb
    exact Or.inr hb
  · rw [if_neg hx] at hb
    exact Or.inl hb

/-- Witness for C10 at `p = 5`, `x = 2`, satisfying witnesses `b = 0`,
`z = 3`. -/
theorem isZero_constraints_force_boolean_witness :
    (0 : ZMod 5) = 0 ∨ (0 : ZMod 5) = 1 :=
  (isZero_constraints_force_boolean 5 (by norm_num) 2).2 0 3 (by decide)

/-- Claim C3: `compareCompatible` reproduces the legacy comparator
prover-mode values on the test vectors of the spec, over the field of the source:
`(5, 5)` gives `lessOrEqual = 1, less = 0`; `(3, 9)` gives `1, 1`;
`(9, 3)` gives `0, 0` (with `n = 8`, prover mode on). -/
theorem compareCompatible_matches_legacy :
    compareCompatible fpOrder true (5 : ZMod fpOrder) (5 : ZMod fpOrder) 8
      = .ok (1, 0) ∧
    compareCompatible fpOrder true (3 : ZMod fpOrder) (9 : ZMod fpOrder) 8
      = .ok (1, 1) ∧
    compareCompatible fpOrder true (9 : ZMod fpOrder) (3 : ZMod fpOrder) 8
      = .ok (0, 0) := by
  have hn : (8 : ℕ) ≤ sizeInBits fpOrder - 2 := by
    rw [sizeInBits_fpOrder]
    norm_num
  have hp2 : 2 ^ (8 + 1) ≤ fpOrder := by decide
  refine ⟨?_, ?_, ?_⟩
  · have h := compareCompatible_eval fpOrder 5 5 8 hn (by norm_num) (by norm_num)
      hp2 (Or.inl (by decide))
    have e1 : ((2 ^ 8 + 5 - 5) >>> 8) &&& 1 = 1 := by decide
    have e2 : lowOnes (2 ^ 8 + 5 - 5) 8 = 0 := by decide
    rw [e1, e2] at h
    simpa using h
  · have h := compareCompatible_eval fpOrder 3 9 8 hn (by norm_num) (by norm_num)
      hp2 (Or.inr (by decide))
    have e1 : ((2 ^ 8 + 9 - 3) >>> 8) &&& 1 = 1 := by decide
    have e2 : lowOnes (2 ^ 8 + 9 - 3) 8 = 2 := by decide
    rw [e1, e2] at h
    simpa using h
  · have h := compareCompatible_eval fpOrder 9 3 8 hn (by norm_num) (by norm_num)
      hp2 (Or.inr (by decide))
    have e1 : ((2 ^ 8 + 3 - 9) >>> 8) &&& 1 = 0 := by decide
    have e2 : lowOnes (2 ^ 8 + 3 - 9) 8 = 6 := by decide
    rw [e1, e2] at h
    simpa using h

end Comparison
